import Mathlib

/-!
Verification of the task-store and view-projection logic of a CLI todo-list
manager.  The program keeps an ordered list of task records and derives, on
demand, a grouped display ordering (undone tasks before done tasks, each group
sorted by priority with a stable sort) together with a mapping from displayed
positions back to original storage indices.  The definitions below are a
shallow embedding of the program's store operations and view projections;
the theorems establish the documented properties of that embedding.
-/

namespace TodoList

/-- A task record: title text, completion flag, and priority level. -/
structure Task where
  title : List Char
  done : Bool
  priority : Int
deriving DecidableEq

/-- The task store: tasks in original insertion order. -/
abbrev Store := List Task

/-- Lower-casing of a string, modelling the lower method on strings. -/
def lower (s : List Char) : List Char := s.map Char.toLower

/-- Removal of leading and trailing whitespace, modelling the strip method. -/
def strip (s : List Char) : List Char :=
  ((s.dropWhile Char.isWhitespace).reverse.dropWhile Char.isWhitespace).reverse

/-- Contiguous-substring test: does the second string contain the first,
modelling the membership operator on strings. -/
def substr (needle : List Char) : List Char → Bool
  | [] => needle.isEmpty
  | c :: rest => needle.isPrefixOf (c :: rest) || substr needle rest

/-- Case-insensitive duplicate-title check over the store. -/
def title_exists (title : List Char) (tasks : Store) : Bool :=
  tasks.any fun t => lower t.title == lower title

/-- The two failure modes of adding a task. -/
inductive AddError where
  | EmptyTitle
  | DuplicateTitle
deriving DecidableEq

/-- Adding a task: the entered title is stripped, rejected when empty or a
case-insensitive duplicate, and otherwise appended with the done flag clear. -/
def add_task (title : List Char) (priority : Int) (tasks : Store) :
    Except AddError Store :=
  let t := strip title
  if t = [] then Except.error AddError.EmptyTitle
  else if title_exists t tasks then Except.error AddError.DuplicateTitle
  else Except.ok (tasks ++ [Task.mk t false priority])

/-- The store paired with original indices, modelling enumerate. -/
def _indexed_tasks (tasks : Store) : List (Nat × Task) := tasks.enum

/-- Comparison of indexed tasks by priority, the sort key of the program. -/
def prioLE (a b : Nat × Task) : Prop := a.2.priority ≤ b.2.priority

instance : DecidableRel prioLE :=
  fun a b => inferInstanceAs (Decidable (a.2.priority ≤ b.2.priority))

instance : IsTotal (Nat × Task) prioLE :=
  ⟨fun a b => Int.le_total a.2.priority b.2.priority⟩

instance : IsTrans (Nat × Task) prioLE :=
  ⟨fun _ _ _ hab hbc => le_trans hab hbc⟩

/-- Indexed tasks sorted by priority.  The program uses the runtime's stable
sort keyed on priority; insertion sort with a non-strict comparison computes
the same (unique) stably sorted result. -/
def _sorted_indexed_by_priority (indexed : List (Nat × Task)) :
    List (Nat × Task) :=
  List.insertionSort prioLE indexed

/-- The sorted indexed tasks split into the undone and done groups. -/
def build_display_groups (tasks : Store) :
    List (Nat × Task) × List (Nat × Task) :=
  ((_sorted_indexed_by_priority (_indexed_tasks tasks)).filter fun p => !p.2.done,
   (_sorted_indexed_by_priority (_indexed_tasks tasks)).filter fun p => p.2.done)

/-- The display mapping: original indices of the undone group followed by
those of the done group. -/
def build_display_mapping (tasks : Store) : List Nat :=
  ((build_display_groups tasks).1 ++ (build_display_groups tasks).2).map
    Prod.fst

/-- Resolution of a user-entered display number to an original index.  The
entered line is modelled as an optional integer, none standing for input that
does not parse as an integer; the result is none exactly in the failure
cases of the program (empty store, unparsable line, number out of range). -/
def get_display_index (line : Option Int) (tasks : Store) : Option Nat :=
  if tasks.isEmpty then none
  else
    match line with
    | none => none
    | some idx =>
      if 1 ≤ idx ∧ idx ≤ ((build_display_mapping tasks).length : Int) then
        (build_display_mapping tasks)[(idx - 1).toNat]?
      else none

/-- Keyword search: indexed tasks whose lower-cased title contains the
keyword, sorted by priority. -/
def find_matching_tasks (keyword : List Char) (tasks : Store) :
    List (Nat × Task) :=
  List.insertionSort prioLE
    ((_indexed_tasks tasks).filter fun p => substr keyword (lower p.2.title))

/-- Failure mode of the search command. -/
inductive SearchError where
  | EmptyKeyword
deriving DecidableEq

/-- The search command: the keyword is stripped and lower-cased, rejected
when empty, and otherwise matched against the store. -/
def search_tasks (keyword : List Char) (tasks : Store) :
    Except SearchError (List (Nat × Task)) :=
  let k := lower (strip keyword)
  if k = [] then Except.error SearchError.EmptyKeyword
  else Except.ok (find_matching_tasks k tasks)

/-- Flipping the done flag of the task at an original index. -/
def toggle_task (i : Nat) (tasks : Store) : Store :=
  match tasks[i]? with
  | some t => tasks.set i (Task.mk t.title (!t.done) t.priority)
  | none => tasks

/-- Deleting the task at an original index; later tasks shift down by one. -/
def delete_task (i : Nat) (tasks : Store) : Store := tasks.eraseIdx i

/-- The toggle command: resolve the entered display number, then flip the
selected task; on resolution failure the store is left untouched. -/
def toggle_command (line : Option Int) (tasks : Store) : Store :=
  match get_display_index line tasks with
  | some i => toggle_task i tasks
  | none => tasks

/-- The delete command: resolve the entered display number, then delete the
selected task; on resolution failure the store is left untouched. -/
def delete_command (line : Option Int) (tasks : Store) : Store :=
  match get_display_index line tasks with
  | some i => delete_task i tasks
  | none => tasks

/-- The add command: on either add failure the store is left untouched. -/
def add_command (title : List Char) (priority : Int) (tasks : Store) : Store :=
  match add_task title priority tasks with
  | Except.ok s => s
  | Except.error _ => tasks

/-- One user-issued mutating command. -/
inductive Op where
  | add (title : List Char) (priority : Int)
  | toggle (line : Option Int)
  | delete (line : Option Int)
deriving DecidableEq

/-- Effect of one command on the store. -/
def step (tasks : Store) : Op → Store
  | Op.add t p => add_command t p tasks
  | Op.toggle l => toggle_command l tasks
  | Op.delete l => delete_command l tasks

/-- The store reached from the empty store by a sequence of commands. -/
def run (ops : List Op) : Store := ops.foldl step []

/-- The done flag stored at an original index (false when out of range). -/
def doneAt (tasks : Store) (i : Nat) : Bool :=
  (tasks[i]?.map Task.done).getD false

/-- Stable tie-break order: indexed tasks of equal priority appear in
original-index order. -/
def tieOrd (a b : Nat × Task) : Prop := a.2.priority = b.2.priority → a.1 < b.1

/-- Invariant of reachable stores: every stored title is stripped and
non-empty, and no two stored titles agree case-insensitively. -/
def GoodStore (tasks : Store) : Prop :=
  (∀ t ∈ tasks, strip t.title = t.title ∧ t.title ≠ [])
  ∧ tasks.Pairwise fun a b => lower a.title ≠ lower b.title

/-- A store used to instantiate the claims on a concrete input. -/
def demoTasks : Store :=
  [Task.mk ['b'] false 2, Task.mk ['c'] true 1, Task.mk ['p'] false 1]

/-- A one-command history used to instantiate the duplicate-title claim. -/
def dupOps : List Op := [Op.add ['m'] 1]

/-- A two-task store on which the literal reading of the deletion claim
fails: deleting display position 1 removes original index 0, yet the
recomputed mapping of the shrunk store contains the index value 0 again
(now denoting the surviving task). -/
def pairTasks : Store := [Task.mk ['a'] false 1, Task.mk ['b'] false 1]

/-! ### General lemmas about the sorting and grouping machinery -/

theorem pairwise_prio_insertionSort (l : List (Nat × Task)) :
    (List.insertionSort prioLE l).Pairwise prioLE :=
  List.sorted_insertionSort prioLE l

theorem pairwise_tie_orderedInsert (a : Nat × Task) (l : List (Nat × Task))
    (ha : ∀ x ∈ l, a.1 < x.1) (hl : l.Pairwise tieOrd) :
    (List.orderedInsert prioLE a l).Pairwise tieOrd := by
  induction l with
  | nil => simp [List.orderedInsert]
  | cons b t ih =>
    rw [List.orderedInsert]
    split
    · constructor
      · intro x hx _
        exact ha x hx
      · exact hl
    · rename_i hnab
      have hbt := List.pairwise_cons.mp hl
      constructor
      · intro x hx
        rcases (List.mem_orderedInsert prioLE).mp hx with hxa | hxt
        · subst hxa
          intro hba
          exact absurd (le_of_eq hba.symm) hnab
        · exact hbt.1 x hxt
      · exact ih (fun x hx => ha x (List.mem_cons_of_mem b hx)) hbt.2

theorem pairwise_tie_insertionSort (l : List (Nat × Task))
    (h : l.Pairwise fun a b => a.1 < b.1) :
    (List.insertionSort prioLE l).Pairwise tieOrd := by
  induction l with
  | nil => simp [List.insertionSort]
  | cons a t ih =>
    rw [List.insertionSort]
    have h' := List.pairwise_cons.mp h
    apply pairwise_tie_orderedInsert
    · intro x hx
      exact h'.1 x ((List.mem_insertionSort prioLE).mp hx)
    · exact ih h'.2

theorem pairwise_fst_lt_enum {α : Type} (l : List α) :
    (l.enum).Pairwise fun a b => a.1 < b.1 := by
  have h1 : (l.enum.map Prod.fst).Pairwise (· < ·) := by
    rw [List.enum_map_fst]
    exact List.pairwise_lt_range _
  exact List.pairwise_map.mp h1

theorem mem_sorted_indexed {tasks : Store} {p : Nat × Task} :
    p ∈ _sorted_indexed_by_priority (_indexed_tasks tasks) ↔
      tasks[p.1]? = some p.2 := by
  rw [_sorted_indexed_by_priority, List.mem_insertionSort, _indexed_tasks,
    List.mem_enum_iff_getElem?]

theorem display_mapping_perm (tasks : Store) :
    List.Perm (build_display_mapping tasks) (List.range tasks.length) := by
  have hfil :
      List.Perm
        ((_sorted_indexed_by_priority (_indexed_tasks tasks)).filter
            (fun p => !p.2.done)
          ++ (_sorted_indexed_by_priority (_indexed_tasks tasks)).filter
            (fun p => p.2.done))
        (_sorted_indexed_by_priority (_indexed_tasks tasks)) := by
    have h := List.filter_append_perm (fun p : Nat × Task => !p.2.done)
      (_sorted_indexed_by_priority (_indexed_tasks tasks))
    simpa [Bool.not_not] using h
  have hsort :
      List.Perm (_sorted_indexed_by_priority (_indexed_tasks tasks))
        (_indexed_tasks tasks) :=
    List.perm_insertionSort prioLE _
  have hmap :
      List.Perm (build_display_mapping tasks)
        ((_indexed_tasks tasks).map Prod.fst) := by
    rw [build_display_mapping, build_display_groups]
    exact (hfil.trans hsort).map Prod.fst
  have henum : (_indexed_tasks tasks).map Prod.fst = List.range tasks.length := by
    rw [_indexed_tasks, List.enum_map_fst]
  rw [henum] at hmap
  exact hmap

theorem mem_display_mapping_lt {tasks : Store} {i : Nat}
    (h : i ∈ build_display_mapping tasks) : i < tasks.length :=
  List.mem_range.mp ((display_mapping_perm tasks).mem_iff.mp h)

theorem length_display_mapping (tasks : Store) :
    (build_display_mapping tasks).length = tasks.length := by
  have := (display_mapping_perm tasks).length_eq
  simpa [List.length_range] using this

theorem mem_undone_group {tasks : Store} {p : Nat × Task}
    (h : p ∈ (build_display_groups tasks).1) :
    tasks[p.1]? = some p.2 ∧ p.2.done = false := by
  rw [build_display_groups] at h
  obtain ⟨hmem, hdone⟩ := List.mem_filter.mp h
  exact ⟨mem_sorted_indexed.mp hmem, by simpa using hdone⟩

theorem mem_done_group {tasks : Store} {p : Nat × Task}
    (h : p ∈ (build_display_groups tasks).2) :
    tasks[p.1]? = some p.2 ∧ p.2.done = true := by
  rw [build_display_groups] at h
  obtain ⟨hmem, hdone⟩ := List.mem_filter.mp h
  exact ⟨mem_sorted_indexed.mp hmem, hdone⟩

/-- C1: for every store with at least one task, the display mapping has
length equal to the store size, is a permutation of the original indices,
lists every undone index before every done index, and is the undone group's
indices followed by the done group's indices as produced by the grouping
function. -/
theorem display_mapping_permutation_spec (tasks : Store)
    (h : 1 ≤ tasks.length) :
    (build_display_mapping tasks).length = tasks.length
    ∧ List.Perm (build_display_mapping tasks) (List.range tasks.length)
    ∧ (build_display_mapping tasks).Pairwise
        (fun i j => doneAt tasks i = true → doneAt tasks j = true)
    ∧ build_display_mapping tasks
        = (build_display_groups tasks).1.map Prod.fst
          ++ (build_display_groups tasks).2.map Prod.fst := by
  refine ⟨length_display_mapping tasks, display_mapping_perm tasks, ?_, ?_⟩
  · have hu : ∀ i ∈ (build_display_groups tasks).1.map Prod.fst,
        doneAt tasks i = false := by
      intro i hi
      obtain ⟨p, hp, rfl⟩ := List.mem_map.mp hi
      obtain ⟨hget, hdone⟩ := mem_undone_group hp
      simp [doneAt, hget, hdone]
    have hd : ∀ i ∈ (build_display_groups tasks).2.map Prod.fst,
        doneAt tasks i = true := by
      intro i hi
      obtain ⟨p, hp, rfl⟩ := List.mem_map.mp hi
      obtain ⟨hget, hdone⟩ := mem_done_group hp
      simp [doneAt, hget, hdone]
    have hmap : build_display_mapping tasks
        = (build_display_groups tasks).1.map Prod.fst
          ++ (build_display_groups tasks).2.map Prod.fst := by
      rw [build_display_mapping, List.map_append]
    rw [hmap]
    refine List.pairwise_append.mpr ⟨?_, ?_, ?_⟩
    · refine List.pairwise_of_forall_mem_list ?_
      intro a ha b _ hda
      simp [hu a ha] at hda
    · refine List.pairwise_of_forall_mem_list ?_
      intro a _ b hb _
      exact hd b hb
    · intro a _ b hb _
      exact hd b hb
  · rw [build_display_mapping, List.map_append]

theorem display_mapping_permutation_spec_witness :
    (build_display_mapping demoTasks).length = demoTasks.length
    ∧ List.Perm (build_display_mapping demoTasks) (List.range demoTasks.length)
    ∧ (build_display_mapping demoTasks).Pairwise
        (fun i j => doneAt demoTasks i = true → doneAt demoTasks j = true)
    ∧ build_display_mapping demoTasks
        = (build_display_groups demoTasks).1.map Prod.fst
          ++ (build_display_groups demoTasks).2.map Prod.fst :=
  display_mapping_permutation_spec demoTasks (by decide)

/-- C2: within each display group the priorities are non-decreasing, and
tasks of equal priority keep their original-index order (stable sort). -/
theorem display_groups_sorted_stable (tasks : Store) :
    (build_display_groups tasks).1.Pairwise prioLE
    ∧ (build_display_groups tasks).2.Pairwise prioLE
    ∧ (build_display_groups tasks).1.Pairwise tieOrd
    ∧ (build_display_groups tasks).2.Pairwise tieOrd := by
  have hs : (_sorted_indexed_by_priority (_indexed_tasks tasks)).Pairwise
      prioLE := pairwise_prio_insertionSort _
  have ht : (_sorted_indexed_by_priority (_indexed_tasks tasks)).Pairwise
      tieOrd := by
    rw [_sorted_indexed_by_priority]
    refine pairwise_tie_insertionSort _ ?_
    rw [_indexed_tasks]
    exact pairwise_fst_lt_enum tasks
  rw [build_display_groups]
  exact ⟨hs.filter _, hs.filter _, ht.filter _, ht.filter _⟩

/-- C3: resolving an entered display number succeeds exactly when it lies in
the interval from 1 to the mapping length, and then yields the mapping entry
at the number minus one; outside that range it yields no index. -/
theorem get_display_index_spec (tasks : Store) (n : Int) :
    ((get_display_index (some n) tasks).isSome
        ↔ 1 ≤ n ∧ n ≤ ((build_display_mapping tasks).length : Int))
    ∧ get_display_index (some n) tasks
        = if 1 ≤ n ∧ n ≤ ((build_display_mapping tasks).length : Int) then
            (build_display_mapping tasks)[(n - 1).toNat]?
          else none := by
  have hlen := length_display_mapping tasks
  have e : get_display_index (some n) tasks
      = if tasks.isEmpty then none
        else if 1 ≤ n ∧ n ≤ ((build_display_mapping tasks).length : Int) then
          (build_display_mapping tasks)[(n - 1).toNat]?
        else none := rfl
  by_cases hemp : tasks.isEmpty
  · have h0 : tasks.length = 0 := by
      rw [List.isEmpty_iff] at hemp
      simp [hemp]
    have hno : ¬(1 ≤ n ∧ n ≤ ((build_display_mapping tasks).length : Int)) := by
      rw [hlen, h0]
      intro hc
      omega
    rw [e, if_pos hemp]
    refine ⟨by simp [hno], by rw [if_neg hno]⟩
  · rw [e, if_neg hemp]
    by_cases hr : 1 ≤ n ∧ n ≤ ((build_display_mapping tasks).length : Int)
    · rw [if_pos hr]
      have hlt : (n - 1).toNat < (build_display_mapping tasks).length := by
        omega
      rw [List.getElem?_eq_getElem hlt]
      exact ⟨⟨fun _ => hr, fun _ => rfl⟩, rfl⟩
    · rw [if_neg hr]
      simp [hr]

theorem get_display_index_spec_witness :
    ((get_display_index (some 1) demoTasks).isSome
        ↔ 1 ≤ (1 : Int)
            ∧ (1 : Int) ≤ ((build_display_mapping demoTasks).length : Int))
    ∧ get_display_index (some 1) demoTasks
        = if 1 ≤ (1 : Int)
              ∧ (1 : Int) ≤ ((build_display_mapping demoTasks).length : Int)
            then (build_display_mapping demoTasks)[((1 : Int) - 1).toNat]?
          else none :=
  get_display_index_spec demoTasks 1

theorem set_getElem?_self {α : Type} {l : List α} {i : Nat} {a : α}
    (h : l[i]? = some a) : l.set i a = l := by
  induction l generalizing i with
  | nil => simp at h
  | cons x t ih =>
    cases i with
    | zero =>
      simp only [List.getElem?_cons_zero, Option.some.injEq] at h
      simp [h]
    | succ m =>
      simp only [List.getElem?_cons_succ] at h
      simp [ih h]

/-- C9: toggling the task at a valid original index twice returns its done
flag to the original value, and neither toggle changes the store size. -/
theorem toggle_twice_restores (tasks : Store) (i : Nat)
    (h : i < tasks.length) :
    ((toggle_task i (toggle_task i tasks))[i]?).map Task.done
        = (tasks[i]?).map Task.done
    ∧ (toggle_task i tasks).length = tasks.length
    ∧ (toggle_task i (toggle_task i tasks)).length = tasks.length := by
  have hget : tasks[i]? = some tasks[i] := List.getElem?_eq_getElem h
  have e1 : toggle_task i tasks
      = tasks.set i (Task.mk tasks[i].title (!tasks[i].done) tasks[i].priority) := by
    rw [toggle_task, hget]
  have hget2 : (tasks.set i
        (Task.mk tasks[i].title (!tasks[i].done) tasks[i].priority))[i]?
      = some (Task.mk tasks[i].title (!tasks[i].done) tasks[i].priority) :=
    List.getElem?_set_self h
  have e2 : toggle_task i (toggle_task i tasks) = tasks := by
    rw [e1, toggle_task, hget2]
    simp only [Bool.not_not]
    rw [List.set_set]
    exact set_getElem?_self hget
  refine ⟨by rw [e2], by rw [e1, List.length_set], by rw [e2]⟩

theorem toggle_twice_restores_witness :
    ((toggle_task 0 (toggle_task 0 demoTasks))[0]?).map Task.done
        = (demoTasks[0]?).map Task.done
    ∧ (toggle_task 0 demoTasks).length = demoTasks.length
    ∧ (toggle_task 0 (toggle_task 0 demoTasks)).length = demoTasks.length :=
  toggle_twice_restores demoTasks 0 (by decide)

/-- C10: whenever resolving the entered display number fails (empty store,
line that is not an integer, or number out of range), the toggle and delete
commands leave the store exactly as it was. -/
theorem failed_resolution_no_mutation (tasks : Store) (line : Option Int)
    (h : tasks = [] ∨ line = none
      ∨ ∃ n : Int, line = some n
          ∧ (n < 1 ∨ ((build_display_mapping tasks).length : Int) < n)) :
    get_display_index line tasks = none
    ∧ toggle_command line tasks = tasks
    ∧ delete_command line tasks = tasks := by
  have hnone : get_display_index line tasks = none := by
    rcases h with rfl | rfl | ⟨n, rfl, hn⟩
    · rfl
    · by_cases he : tasks.isEmpty <;> simp [get_display_index, he]
    · have hcond :
          ¬(1 ≤ n ∧ n ≤ ((build_display_mapping tasks).length : Int)) := by
        omega
      by_cases he : tasks.isEmpty <;> simp [get_display_index, he, hcond]
  refine ⟨hnone, ?_, ?_⟩
  · rw [toggle_command, hnone]
  · rw [delete_command, hnone]

theorem failed_resolution_no_mutation_witness :
    get_display_index (some 99) demoTasks = none
    ∧ toggle_command (some 99) demoTasks = demoTasks
    ∧ delete_command (some 99) demoTasks = demoTasks :=
  failed_resolution_no_mutation demoTasks (some 99)
    (Or.inr (Or.inr ⟨99, rfl, Or.inr (by decide)⟩))

/-! ### Lemmas about lower-casing and stripping of strings -/

theorem isWhitespace_toLower (c : Char) :
    (Char.toLower c).isWhitespace = c.isWhitespace := by
  simp only [Char.toLower]
  split
  · rename_i h
    obtain ⟨h1, h2⟩ := h
    have hc : c = Char.ofNat c.toNat := (Char.ofNat_toNat c).symm
    conv_rhs => rw [hc]
    generalize hn : c.toNat = n at h1 h2 ⊢
    interval_cases n <;> decide
  · rfl

theorem dropWhile_idem {α : Type} {p : α → Bool} {l : List α} :
    (l.dropWhile p).dropWhile p = l.dropWhile p := by
  cases h : l.dropWhile p with
  | nil => rfl
  | cons a t =>
    have hh := List.head?_dropWhile_not p l
    rw [h] at hh
    simp only [List.head?_cons] at hh
    exact List.dropWhile_cons_of_neg (by simp [hh])

theorem dropWhile_eq_self_of_head {α : Type} {p : α → Bool} {l : List α}
    (h : ∀ a ∈ l.head?, p a = false) : l.dropWhile p = l := by
  cases l with
  | nil => rfl
  | cons x t =>
    have hx : p x = false := h x (by simp)
    exact List.dropWhile_cons_of_neg (by simp [hx])

theorem head?_strip (s : List Char) :
    ∀ a ∈ (strip s).head?, a.isWhitespace = false := by
  intro a ha
  rw [strip, List.head?_reverse] at ha
  obtain ⟨pre, hpre⟩ :=
    List.dropWhile_suffix (l := (s.dropWhile Char.isWhitespace).reverse)
      Char.isWhitespace
  have hsome :
      (((s.dropWhile Char.isWhitespace).reverse).dropWhile
          Char.isWhitespace).getLast? = some a := ha
  have hlast :
      (((s.dropWhile Char.isWhitespace).reverse).dropWhile
            Char.isWhitespace).getLast?.or pre.getLast?
        = (s.dropWhile Char.isWhitespace).head? := by
    rw [← List.getLast?_append, hpre, List.getLast?_reverse]
  rw [hsome] at hlast
  simp only [Option.or_some] at hlast
  have hh := List.head?_dropWhile_not Char.isWhitespace s
  rw [← hlast] at hh
  exact hh

theorem strip_idem (s : List Char) : strip (strip s) = strip s := by
  have h1 : (strip s).dropWhile Char.isWhitespace = strip s :=
    dropWhile_eq_self_of_head (head?_strip s)
  have h2 : ((strip s).reverse).dropWhile Char.isWhitespace
      = (strip s).reverse := by
    rw [strip, List.reverse_reverse]
    exact dropWhile_idem
  conv_lhs => rw [strip]
  rw [h1, h2, List.reverse_reverse]

theorem strip_eq_nil_of_ws {s : List Char}
    (h : ∀ c ∈ s, c.isWhitespace = true) : strip s = [] := by
  have h1 : s.dropWhile Char.isWhitespace = [] :=
    List.dropWhile_eq_nil_iff.mpr h
  rw [strip, h1]
  rfl

theorem lower_strip (s : List Char) : lower (strip s) = strip (lower s) := by
  have hcomp : Char.isWhitespace ∘ Char.toLower = Char.isWhitespace := by
    funext c
    exact isWhitespace_toLower c
  rw [lower, strip, strip, lower, List.dropWhile_map, hcomp,
    ← List.map_reverse, List.dropWhile_map, hcomp, ← List.map_reverse]

theorem lower_eq_nil_iff {s : List Char} : lower s = [] ↔ s = [] := by
  rw [lower, List.map_eq_nil_iff]

/-- C8: adding a task whose title is empty or all-whitespace fails with the
empty-title error and leaves the store unchanged. -/
theorem empty_title_rejected (tasks : Store) (title : List Char) (p : Int)
    (h : ∀ c ∈ title, c.isWhitespace = true) :
    add_task title p tasks = Except.error AddError.EmptyTitle
    ∧ add_command title p tasks = tasks := by
  have hnil : strip title = [] := strip_eq_nil_of_ws h
  have herr : add_task title p tasks = Except.error AddError.EmptyTitle := by
    simp only [add_task]
    rw [if_pos hnil]
  exact ⟨herr, by rw [add_command, herr]⟩

theorem empty_title_rejected_witness :
    add_task [' ', ' '] 1 demoTasks = Except.error AddError.EmptyTitle
    ∧ add_command [' ', ' '] 1 demoTasks = demoTasks :=
  empty_title_rejected demoTasks [' ', ' '] 1 (by decide)

/-! ### The store invariant maintained by every command -/

theorem goodStore_nil : GoodStore [] := ⟨by simp, List.Pairwise.nil⟩

theorem add_task_ok {title : List Char} {p : Int} {tasks s : Store}
    (h : add_task title p tasks = Except.ok s) :
    strip title ≠ [] ∧ title_exists (strip title) tasks = false
    ∧ s = tasks ++ [Task.mk (strip title) false p] := by
  simp only [add_task] at h
  split at h
  · exact absurd h (by simp)
  · split at h
    · exact absurd h (by simp)
    · rename_i hne hdup
      cases h
      exact ⟨hne, by simpa using hdup, rfl⟩

theorem goodStore_sublist {tasks tasks' : Store}
    (hsub : List.Sublist tasks' tasks)
    (h : GoodStore tasks) : GoodStore tasks' :=
  ⟨fun t ht => h.1 t (hsub.subset ht), h.2.sublist hsub⟩

theorem goodStore_toggle (i : Nat) {tasks : Store} (h : GoodStore tasks) :
    GoodStore (toggle_task i tasks) := by
  rw [toggle_task]
  cases hget : tasks[i]? with
  | none => exact h
  | some t =>
    have htmem : t ∈ tasks := List.getElem?_mem hget
    constructor
    · intro x hx
      rcases List.mem_or_eq_of_mem_set hx with hx' | rfl
      · exact h.1 x hx'
      · exact h.1 t htmem
    · have hmap :
          (tasks.set i (Task.mk t.title (!t.done) t.priority)).map
              (fun x => lower x.title)
            = tasks.map fun x => lower x.title := by
        rw [List.map_set]
        refine set_getElem?_self ?_
        rw [List.getElem?_map, hget]
        rfl
      have h2 : (tasks.map fun x => lower x.title).Pairwise Ne :=
        List.pairwise_map.mpr h.2
      rw [← hmap] at h2
      exact List.pairwise_map.mp h2

theorem goodStore_step (tasks : Store) (op : Op) (h : GoodStore tasks) :
    GoodStore (step tasks op) := by
  cases op with
  | add title p =>
    show GoodStore (add_command title p tasks)
    rw [add_command]
    cases hadd : add_task title p tasks with
    | error e => exact h
    | ok s =>
      obtain ⟨hne, hdup, rfl⟩ := add_task_ok hadd
      constructor
      · intro t ht
        rcases List.mem_append.mp ht with ht' | ht'
        · exact h.1 t ht'
        · have : t = Task.mk (strip title) false p := by simpa using ht'
          subst this
          exact ⟨strip_idem title, hne⟩
      · refine List.pairwise_append.mpr ⟨h.2, by simp, ?_⟩
        intro a ha b hb
        have hb' : b = Task.mk (strip title) false p := by simpa using hb
        subst hb'
        have := List.any_eq_false.mp hdup a ha
        simpa [beq_iff_eq] using this
  | toggle line =>
    show GoodStore (toggle_command line tasks)
    rw [toggle_command]
    cases get_display_index line tasks with
    | none => exact h
    | some i => exact goodStore_toggle i h
  | delete line =>
    show GoodStore (delete_command line tasks)
    rw [delete_command]
    cases get_display_index line tasks with
    | none => exact h
    | some i => exact goodStore_sublist (List.eraseIdx_sublist tasks i) h

theorem run_good (ops : List Op) : GoodStore (run ops) := by
  suffices hgen : ∀ (l : List Op) (tasks : Store), GoodStore tasks →
      GoodStore (l.foldl step tasks) from hgen ops [] goodStore_nil
  intro l
  induction l with
  | nil => exact fun tasks h => h
  | cons op rest ih =>
    intro tasks h
    exact ih (step tasks op) (goodStore_step tasks op h)

/-- C5: in every store reachable from the empty store by add, toggle and
delete commands, no two tasks have case-insensitively equal titles. -/
theorem no_duplicate_titles_invariant (ops : List Op) :
    (run ops).Pairwise fun a b => lower a.title ≠ lower b.title :=
  (run_good ops).2

/-- C7: adding a title that agrees case-insensitively with a stored title of
a reachable store fails with the duplicate-title error and leaves the store
unchanged. -/
theorem duplicate_add_rejected (ops : List Op) (title : List Char) (p : Int)
    (h : ∃ t ∈ run ops, lower t.title = lower title) :
    add_task title p (run ops) = Except.error AddError.DuplicateTitle
    ∧ add_command title p (run ops) = run ops := by
  obtain ⟨t0, ht0, heq⟩ := h
  obtain ⟨hstrip, hne⟩ := (run_good ops).1 t0 ht0
  have hkey : lower (strip title) = lower t0.title := by
    rw [lower_strip, ← heq, ← lower_strip, hstrip]
  have hnotnil : strip title ≠ [] := by
    intro hnil
    rw [hnil] at hkey
    have : t0.title = [] := lower_eq_nil_iff.mp hkey.symm
    exact hne this
  have hex : title_exists (strip title) (run ops) = true := by
    rw [title_exists, List.any_eq_true]
    exact ⟨t0, ht0, by rw [beq_iff_eq, hkey]⟩
  have herr : add_task title p (run ops)
      = Except.error AddError.DuplicateTitle := by
    simp only [add_task]
    rw [if_neg hnotnil, if_pos hex]
  exact ⟨herr, by rw [add_command, herr]⟩

theorem duplicate_add_rejected_witness :
    add_task ['M'] 2 (run dupOps) = Except.error AddError.DuplicateTitle
    ∧ add_command ['M'] 2 (run dupOps) = run dupOps :=
  duplicate_add_rejected dupOps ['M'] 2 (by decide)

/-! ### Substring characterisation and the search operation -/

theorem isPrefixOf_iff_exists {a b : List Char} :
    a.isPrefixOf b = true ↔ ∃ t, a ++ t = b := by
  induction a generalizing b with
  | nil => simp [List.isPrefixOf]
  | cons x xs ih =>
    cases b with
    | nil => simp [List.isPrefixOf]
    | cons y ys =>
      simp [List.isPrefixOf, ih, exists_and_left]

theorem substr_iff {needle hay : List Char} :
    substr needle hay = true ↔ ∃ s t, s ++ needle ++ t = hay := by
  induction hay with
  | nil =>
    simp only [substr, List.isEmpty_iff]
    constructor
    · rintro rfl
      exact ⟨[], [], rfl⟩
    · rintro ⟨s, t, h⟩
      simp only [List.append_eq_nil] at h
      exact h.1.2
  | cons c rest ih =>
    simp only [substr, Bool.or_eq_true, isPrefixOf_iff_exists, ih]
    constructor
    · rintro (⟨t, ht⟩ | ⟨s, t, hst⟩)
      · exact ⟨[], t, by simpa using ht⟩
      · exact ⟨c :: s, t, by simp [hst]⟩
    · rintro ⟨s, t, hst⟩
      cases s with
      | nil =>
        left
        exact ⟨t, by simpa using hst⟩
      | cons a s2 =>
        right
        simp only [List.cons_append, List.cons.injEq] at hst
        exact ⟨s2, t, hst.2⟩

theorem find_matching_tasks_spec (keyword : List Char) (tasks : Store) :
    List.Perm (find_matching_tasks keyword tasks)
        ((tasks.enum).filter fun p => substr keyword (lower p.2.title))
    ∧ (find_matching_tasks keyword tasks).Pairwise prioLE
    ∧ (find_matching_tasks keyword tasks).Pairwise tieOrd := by
  refine ⟨?_, pairwise_prio_insertionSort _, ?_⟩
  · rw [find_matching_tasks, _indexed_tasks]
    exact List.perm_insertionSort prioLE _
  · rw [find_matching_tasks]
    refine pairwise_tie_insertionSort _ ?_
    refine List.Pairwise.filter _ ?_
    rw [_indexed_tasks]
    exact pairwise_fst_lt_enum tasks

/-- C6: for a validated (non-blank-padded, non-empty) keyword, the search
command succeeds and returns exactly the indexed tasks whose lower-cased
title contains the lower-cased keyword, regardless of done state, sorted by
priority ascending with the stable original-index tie-break. -/
theorem search_tasks_spec (tasks : Store) (keyword : List Char)
    (h1 : strip keyword = keyword) (h2 : keyword ≠ []) :
    ∃ L, search_tasks keyword tasks = Except.ok L
      ∧ List.Perm L
          ((tasks.enum).filter fun p => substr (lower keyword) (lower p.2.title))
      ∧ L.Pairwise prioLE
      ∧ L.Pairwise tieOrd
      ∧ ∀ i : Nat, ∀ t : Task,
          ((i, t) ∈ L ↔ tasks[i]? = some t
            ∧ ∃ s u, s ++ lower keyword ++ u = lower t.title) := by
  have hknil : lower keyword ≠ [] := fun hc => h2 (lower_eq_nil_iff.mp hc)
  have hok : search_tasks keyword tasks
      = Except.ok (find_matching_tasks (lower keyword) tasks) := by
    simp only [search_tasks, h1]
    rw [if_neg hknil]
  obtain ⟨hperm, hsorted, htie⟩ := find_matching_tasks_spec (lower keyword) tasks
  refine ⟨find_matching_tasks (lower keyword) tasks, hok, hperm, hsorted,
    htie, ?_⟩
  intro i t
  rw [hperm.mem_iff, List.mem_filter]
  rw [show ((i, t) ∈ tasks.enum) = (tasks[i]? = some t) from
    propext List.mem_enum_iff_getElem?]
  constructor
  · rintro ⟨hget, hsub⟩
    exact ⟨hget, substr_iff.mp hsub⟩
  · rintro ⟨hget, hsub⟩
    exact ⟨hget, substr_iff.mpr hsub⟩

theorem search_tasks_spec_witness :
    ∃ L, search_tasks ['B'] demoTasks = Except.ok L
      ∧ List.Perm L
          ((demoTasks.enum).filter fun p =>
            substr (lower ['B']) (lower p.2.title))
      ∧ L.Pairwise prioLE
      ∧ L.Pairwise tieOrd
      ∧ ∀ i : Nat, ∀ t : Task,
          ((i, t) ∈ L ↔ demoTasks[i]? = some t
            ∧ ∃ s u, s ++ lower ['B'] ++ u = lower t.title) :=
  search_tasks_spec demoTasks ['B'] (by decide) (by decide)

/-! ### Deleting a displayed task -/

/-- C4 (amended): deleting the original index selected by a valid display
position removes exactly that task, shrinks the store by one, shifts all
later original indices down by one, and the recomputed display mapping only
references indices of the shrunk store. -/
theorem delete_display_spec (tasks : Store) (k i : Nat)
    (hk : (build_display_mapping tasks)[k]? = some i) :
    (delete_task i tasks).length = tasks.length - 1
    ∧ (∀ j, j < i → (delete_task i tasks)[j]? = tasks[j]?)
    ∧ (∀ j, i ≤ j → (delete_task i tasks)[j]? = tasks[j + 1]?)
    ∧ ∀ m ∈ build_display_mapping (delete_task i tasks),
        m < tasks.length - 1 := by
  have hi : i < tasks.length :=
    mem_display_mapping_lt (List.getElem?_mem hk)
  refine ⟨by rw [delete_task]; exact List.length_eraseIdx_of_lt hi, ?_, ?_, ?_⟩
  · intro j hj
    rw [delete_task]
    exact List.getElem?_eraseIdx_of_lt tasks i j hj
  · intro j hj
    rw [delete_task]
    exact List.getElem?_eraseIdx_of_ge tasks i j hj
  · intro m hm
    have hlt := mem_display_mapping_lt hm
    rw [delete_task, List.length_eraseIdx_of_lt hi] at hlt
    exact hlt

theorem delete_display_spec_witness :
    (delete_task 2 demoTasks).length = demoTasks.length - 1
    ∧ (∀ j, j < 2 → (delete_task 2 demoTasks)[j]? = demoTasks[j]?)
    ∧ (∀ j, 2 ≤ j → (delete_task 2 demoTasks)[j]? = demoTasks[j + 1]?)
    ∧ ∀ m ∈ build_display_mapping (delete_task 2 demoTasks),
        m < demoTasks.length - 1 :=
  delete_display_spec demoTasks 0 2 (by decide)

theorem delete_display_counterexample :
    (build_display_mapping pairTasks)[0]? = some 0
    ∧ 0 ∈ build_display_mapping (delete_task 0 pairTasks) := by decide

example : build_display_mapping
    [Task.mk ['b'] false 2, Task.mk ['c'] false 1, Task.mk ['p'] false 1]
    = [1, 2, 0] := by decide

example : build_display_mapping
    [Task.mk ['b'] false 2, Task.mk ['c'] true 1, Task.mk ['p'] false 1]
    = [2, 0, 1] := by decide

example : substr ['i', 'l'] ['b', 'i', 'l', 'l'] = true := by decide

example : substr ['i', 'l'] ['b', 'i'] = false := by decide

example : strip [' ', 'a', ' '] = ['a'] := by decide

end TodoList
